import Mathlib

/-!
Verification of the rtpipe core against its specification.

The Python source (rtpipe/RT.py, parsesdm.py) is shallowly embedded below.
Floating-point arithmetic is modelled over `ℚ` (every float literal in the
source is a finite value, modelled by its exact rational reading); the one
transcendental operation used by the planner, `sqrt`, is modelled exactly
over `ℝ`.  Python 2 integer division `/` floors; for positive divisors Lean
integer division `/` on `ℤ` (Euclidean) coincides with it, and all divisors
in the embedded code are positive.  External collaborators (the cython
imaging kernels, the SDM reader, numpy std) are passed in as explicit
inputs or oracles, following the spec's external-interface boundary.
-/

namespace RT

/-! ### Candidate / noise file naming (RT.py `getcandsfile`, `getnoisefile`) -/

/-- Slice of the pipeline state dict `d` used by the file-naming helpers.
`segment` is `some s` when the key `'segment'` is present in `d`. -/
structure StateD where
  workdir : String
  fileroot : String
  scan : ℤ
  segment : Option ℤ

/-- Model of Python `os.path.join(a, b)` for a non-absolute second component:
if `a` is empty or ends with the separator, concatenate, else insert `/`. -/
def ospathjoin (a b : String) : String :=
  if a = "" then b else if a.data.getLast? = some '/' then a ++ b else a ++ "/" ++ b

/-- Embeds RT.py `getcandsfile(d, segment=-1)`. -/
def getcandsfile (d : StateD) (segment : ℤ) : String :=
  match d.segment with
  | some s =>
      ospathjoin d.workdir
        ("cands_" ++ d.fileroot ++ "_sc" ++ toString d.scan ++ "seg" ++ toString s ++ ".pkl")
  | none =>
      if 0 ≤ segment then
        ospathjoin d.workdir
          ("cands_" ++ d.fileroot ++ "_sc" ++ toString d.scan ++ "seg" ++ toString segment ++ ".pkl")
      else ""

/-- Embeds RT.py `getnoisefile(d, segment=-1)`. -/
def getnoisefile (d : StateD) (segment : ℤ) : String :=
  match d.segment with
  | some s =>
      ospathjoin d.workdir
        ("noise_" ++ d.fileroot ++ "_sc" ++ toString d.scan ++ "seg" ++ toString s ++ ".pkl")
  | none =>
      if 0 ≤ segment then
        ospathjoin d.workdir
          ("noise_" ++ d.fileroot ++ "_sc" ++ toString d.scan ++ "seg" ++ toString segment ++ ".pkl")
      else ""

end RT

/-- C10: `getcandsfile(d, segment)` and `getnoisefile(d, segment)` never raise:
each returns the per-segment path built from `d['segment']` when that key is
present, otherwise the path built from the `segment` argument when
`segment ≥ 0`, and otherwise the empty string.  (Totality is intrinsic to the
embedding; the theorem gives the three-case characterisation for both
functions.) -/
theorem getfiles_never_raise (d : RT.StateD) (seg : ℤ) :
    (∀ s, d.segment = some s →
      RT.getcandsfile d seg =
        RT.ospathjoin d.workdir
          ("cands_" ++ d.fileroot ++ "_sc" ++ toString d.scan ++ "seg" ++ toString s ++ ".pkl") ∧
      RT.getnoisefile d seg =
        RT.ospathjoin d.workdir
          ("noise_" ++ d.fileroot ++ "_sc" ++ toString d.scan ++ "seg" ++ toString s ++ ".pkl")) ∧
    (d.segment = none → 0 ≤ seg →
      RT.getcandsfile d seg =
        RT.ospathjoin d.workdir
          ("cands_" ++ d.fileroot ++ "_sc" ++ toString d.scan ++ "seg" ++ toString seg ++ ".pkl") ∧
      RT.getnoisefile d seg =
        RT.ospathjoin d.workdir
          ("noise_" ++ d.fileroot ++ "_sc" ++ toString d.scan ++ "seg" ++ toString seg ++ ".pkl")) ∧
    (d.segment = none → seg < 0 →
      RT.getcandsfile d seg = "" ∧ RT.getnoisefile d seg = "") := by
  refine ⟨?_, ?_, ?_⟩
  · intro s hs
    simp [RT.getcandsfile, RT.getnoisefile, hs]
  · intro hs hseg
    simp [RT.getcandsfile, RT.getnoisefile, hs, hseg]
  · intro hs hseg
    simp [RT.getcandsfile, RT.getnoisefile, hs, not_le.mpr hseg]

/-- Witness for C10: a concrete state without the `'segment'` key and a
nonnegative segment argument yields the per-segment path. -/
theorem getfiles_never_raise_witness :
    RT.getcandsfile ⟨"wd", "fr", 3, none⟩ 2 = "wd/cands_fr_sc3seg2.pkl" ∧
    RT.getnoisefile ⟨"wd", "fr", 3, none⟩ 2 = "wd/noise_fr_sc3seg2.pkl" := by
  have h := (getfiles_never_raise ⟨"wd", "fr", 3, none⟩ 2).2.1 rfl (by decide)
  refine ⟨h.1.trans (by decide), h.2.trans (by decide)⟩

namespace parsesdm

/-! ### Segment (u,v,w) computation (parsesdm.py `get_uvw_segment`) -/

/-- Embeds parsesdm.py `get_uvw_segment(d, segment)` for a valid segment index.
`calcuvw` is the external `sdmreader.calc_uvw` oracle (metric (u,v,w) per
baseline at a given MJD time); `freq_orig0` is `d['freq_orig'][0]` in GHz.
The source scales each coordinate by `freq_orig[0] * (1e9/3e8) * (-1)`. -/
def get_uvw_segment (segmenttimes : List (ℚ × ℚ)) (freq_orig0 : ℚ)
    (calcuvw : ℚ → List ℚ × List ℚ × List ℚ) (segment : ℕ) :
    List ℚ × List ℚ × List ℚ :=
  let st := segmenttimes.getD segment (0, 0)
  let uvw := calcuvw ((st.2 + st.1) / 2)
  (uvw.1.map (fun x => x * freq_orig0 * (1000000000 / 300000000) * (-1)),
   uvw.2.1.map (fun x => x * freq_orig0 * (1000000000 / 300000000) * (-1)),
   uvw.2.2.map (fun x => x * freq_orig0 * (1000000000 / 300000000) * (-1)))

end parsesdm

/-- C6: the (u,v,w) returned by `get_uvw_segment` are the metric values from
the external `compute_uvw` evaluated at the segment midpoint `(t0+t1)/2`,
converted to wavelengths at the first original channel frequency and
multiplied by −1: `u_λ = −u_m · freq0[Hz]/c` with `freq0[Hz] = freq_orig0·10⁹`
and `c = 3·10⁸`, and likewise for v and w. -/
theorem get_uvw_segment_midpoint_scaling (segmenttimes : List (ℚ × ℚ)) (freq_orig0 : ℚ)
    (calcuvw : ℚ → List ℚ × List ℚ × List ℚ) (segment : ℕ) :
    parsesdm.get_uvw_segment segmenttimes freq_orig0 calcuvw segment =
      ((calcuvw (((segmenttimes.getD segment (0, 0)).1 + (segmenttimes.getD segment (0, 0)).2) / 2)).1.map
          (fun x => -(x * (freq_orig0 * 1000000000) / 300000000)),
       (calcuvw (((segmenttimes.getD segment (0, 0)).1 + (segmenttimes.getD segment (0, 0)).2) / 2)).2.1.map
          (fun x => -(x * (freq_orig0 * 1000000000) / 300000000)),
       (calcuvw (((segmenttimes.getD segment (0, 0)).1 + (segmenttimes.getD segment (0, 0)).2) / 2)).2.2.map
          (fun x => -(x * (freq_orig0 * 1000000000) / 300000000))) := by
  unfold parsesdm.get_uvw_segment
  rw [add_comm (segmenttimes.getD segment (0, 0)).1 (segmenttimes.getD segment (0, 0)).2]
  refine Prod.ext ?_ (Prod.ext ?_ ?_) <;>
    · simp only []
      refine List.map_congr_left ?_
      intro x _
      ring

namespace parsesdm

/-! ### Spectral-window rolling (parsesdm.py `read_bdf_segment`) -/

/-- Model of `numpy.roll(l, k)` on one axis: a positive shift `k` moves every
element `k` places toward higher indices, wrapping around. -/
def npRoll {α : Type} (k : ℕ) (l : List α) : List α :=
  l.drop (l.length - k % l.length) ++ l.take (l.length - k % l.length)

/-- The left roll by `k` (elements move toward lower indices), i.e.
`numpy.roll(l, -k)`; this is the roll the spec asks for. -/
def npRollLeft {α : Type} (k : ℕ) (l : List α) : List α :=
  l.drop (k % l.length) ++ l.take (k % l.length)

/-- Embeds the spectral-window reorganisation step of parsesdm.py
`read_bdf_segment`: compute the successive reference-frequency differences
`dfreq`; if all are positive leave the data alone; otherwise require exactly
one negative jump (the `assert`, modelled as `none` on failure), let `rollch`
be the total number of channels of the spectral windows up to and including
the first negative jump, and apply `numpy.roll(data, rollch, axis=2)` to the
channel axis (modelled here as the list of channels `data`). -/
def spw_roll {α : Type} (reffreq : List ℚ) (nchanspw : List ℕ) (data : List α) :
    Option (List α) :=
  let dfreq := (reffreq.zip reffreq.tail).map (fun pr => pr.2 - pr.1)
  if dfreq.all (fun x => decide (0 < x)) then some data
  else if (dfreq.filter (fun x => decide (x < 0))).length = 1 then
    let idx := dfreq.findIdx (fun x => decide (x < 0))
    let rollch := (nchanspw.take (idx + 1)).sum
    some (npRoll rollch data)
  else none

end parsesdm

/-- C3: the code violates the claim.  With concatenated spw reference
frequencies `[20, 30, 10]` (one channel each, channel payload listed by its
frequency), there is exactly one negative jump and the wrap is preceded by
`rollch = 2` channels.  The claim (and the spec) say the channel axis is
rolled LEFT by `rollch`, giving the monotone ordering `[10, 20, 30]`; the
code calls `numpy.roll` with a POSITIVE shift, which rolls right, producing
`[30, 10, 20]` — still out of order.  (The two coincide only when the wrap
sits at exactly half the channels.)  The multi-jump failure branch does agree
with the claim: two negative jumps yield an assertion failure (`none`). -/
theorem spw_roll_wrong_direction :
    parsesdm.spw_roll [20, 30, 10] [1, 1, 1] [(20 : ℚ), 30, 10] = some [30, 10, 20] ∧
    ¬ List.Chain' (· < ·) [(30 : ℚ), 10, 20] ∧
    parsesdm.npRollLeft 2 [(20 : ℚ), 30, 10] = [10, 20, 30] ∧
    List.Chain' (· < ·) [(10 : ℚ), 20, 30] ∧
    parsesdm.spw_roll [30, 20, 10] [1, 1, 1] [(30 : ℚ), 20, 10] = none := by
  refine ⟨?_, ?_, ?_, ?_, ?_⟩
  · norm_num [parsesdm.spw_roll, parsesdm.npRoll, List.findIdx_cons]
  · norm_num [List.chain'_cons]
  · norm_num [parsesdm.npRollLeft]
  · norm_num [List.chain'_cons]
  · norm_num [parsesdm.spw_roll, List.findIdx_cons]

namespace RT

/-! ### Search driver, zero-data branch (RT.py `search`) -/

/-- Candidate key `(segment, int, dmind, dtind, beamnum)`. -/
def CandKey : Type := ℕ × ℕ × ℕ × ℕ × ℕ

/-- The nested `(dmind, dtind, chunk)` loop body of `search`, with the
dedispersion and imaging work abstracted by the oracle `imageres` (the
candidate dictionary returned by the pool for that triple). -/
def search_collect (ndm ndt nchunk : ℕ)
    (imageres : ℕ → ℕ → ℕ → List (CandKey × List ℚ)) : List (CandKey × List ℚ) :=
  (List.range ndm).flatMap fun dmind =>
    (List.range ndt).flatMap fun dtind =>
      (List.range nchunk).flatMap fun chunk => imageres dmind dtind chunk

/-- Embeds the control flow of RT.py `search`: `cands = {}`; if `savecands`
and the candsfile already exists, return `cands`; else if `n.any(data)` run
the (dm, dt, chunk) loops, else log a warning and fall through; return
`cands`.  `data` is the work buffer flattened to a list of complex values
(real, imaginary). -/
def search (savecands candsfileExists : Bool) (ndm ndt nchunk : ℕ)
    (data : List (ℚ × ℚ)) (imageres : ℕ → ℕ → ℕ → List (CandKey × List ℚ)) :
    List (CandKey × List ℚ) :=
  let cands : List (CandKey × List ℚ) := []
  if savecands && candsfileExists then cands
  else if data.any (fun z => decide (z ≠ (0, 0))) then
    search_collect ndm ndt nchunk imageres
  else cands

end RT

/-- C8: if the work-buffer data is entirely zero then `search` performs no
dedispersion or imaging (the result does not depend on the imaging oracle at
all) and returns the empty candidate dictionary. -/
theorem search_all_zero_empty (savecands candsfileExists : Bool) (ndm ndt nchunk : ℕ)
    (data : List (ℚ × ℚ)) (imageres : ℕ → ℕ → ℕ → List (RT.CandKey × List ℚ))
    (hz : ∀ z ∈ data, z = ((0 : ℚ), (0 : ℚ))) :
    RT.search savecands candsfileExists ndm ndt nchunk data imageres = [] := by
  unfold RT.search
  have hany : data.any (fun z => decide (z ≠ (0, 0))) = false := by
    rw [List.any_eq_false]
    intro z hzmem
    simpa using hz z hzmem
  rw [hany]
  split <;> rfl

/-- Witness for C8: a concrete zeros buffer with a nontrivial imaging oracle
still yields no candidates. -/
theorem search_all_zero_empty_witness :
    RT.search false false 2 1 3 [(0, 0), (0, 0)]
      (fun _ _ _ => [(((0, 0, 0, 0, 0) : RT.CandKey), [(3 : ℚ)])]) = [] :=
  search_all_zero_empty false false 2 1 3 [(0, 0), (0, 0)]
    (fun _ _ _ => [(((0, 0, 0, 0, 0) : RT.CandKey), [(3 : ℚ)])]) (by decide)

namespace RT

/-! ### Pixel to direction-cosine conversion (RT.py `calc_lm`) -/

/-- Maximum of a list of rationals (`numpy` `.max()`; default 0 on empty). -/
def listMax (l : List ℚ) : ℚ := l.foldl max (l.getD 0 0)

/-- Minimum of a list of rationals (`numpy` `.min()`; default 0 on empty). -/
def listMin (l : List ℚ) : ℚ := l.foldl min (l.getD 0 0)

/-- First row-major position whose entry equals `v`
(the `[0]` of each index array returned by `n.where(im == v)`). -/
def argPix : List (List ℚ) → ℚ → ℕ × ℕ
  | [], _ => (0, 0)
  | r :: rs, v =>
    match r.findIdx? (fun x => decide (x = v)) with
    | some j => (0, j)
    | none => ((argPix rs v).1 + 1, (argPix rs v).2)

/-- Embeds RT.py `calc_lm(d, im, pix, minmax)`: the peak pixel is the given
`pix` when supplied, else the first position of the image maximum
(`minmax = true`) or minimum (`minmax = false`); then
`l = (npixx/2 − peakl)/(npixx·uvres)`, `m = (npixy/2 − peakm)/(npixy·uvres)`
with `(npixx, npixy) = im.shape`. -/
def calc_lm (uvres : ℚ) (im : List (List ℚ)) (pix : Option (ℤ × ℤ)) (minmax : Bool) :
    ℚ × ℚ :=
  let peak : ℤ × ℤ :=
    match pix with
    | some pr => pr
    | none =>
        let p := if minmax then argPix im (listMax im.flatten)
                 else argPix im (listMin im.flatten)
        ((p.1 : ℤ), (p.2 : ℤ))
  let npixx : ℚ := (im.length : ℚ)
  let npixy : ℚ := ((im.getD 0 []).length : ℚ)
  ((npixx / 2 - (peak.1 : ℚ)) / (npixx * uvres),
   (npixy / 2 - (peak.2 : ℚ)) / (npixy * uvres))

/-- Modelled from the spec: the pixel predicted for a direction cosine,
`(N/2 − l·N·uv_res)` (spec §8, invariant 6 and the round-trip law), rounded
to the nearest integer since pixels are integral. -/
def lm_to_pix (uvres : ℚ) (npix : ℕ) (lm : ℚ) : ℤ :=
  round ((npix : ℚ) / 2 - lm * npix * uvres)

end RT

/-- Helper for C7: converting a direction cosine to its predicted pixel and
back through the `calc_lm` formula loses at most half a pixel. -/
theorem calc_lm_component_roundtrip (uvres : ℚ) (N : ℕ) (v : ℚ)
    (hN : 0 < N) (hu : 0 < uvres) :
    |((N : ℚ) / 2 - (RT.lm_to_pix uvres N v : ℚ)) / ((N : ℚ) * uvres) - v| ≤
      1 / ((N : ℚ) * uvres) := by
  have hNq : (0 : ℚ) < (N : ℚ) := by exact_mod_cast hN
  have hNu : (0 : ℚ) < (N : ℚ) * uvres := mul_pos hNq hu
  set x : ℚ := (N : ℚ) / 2 - v * N * uvres with hx
  have h1 : ((N : ℚ) / 2 - (RT.lm_to_pix uvres N v : ℚ)) / ((N : ℚ) * uvres) - v =
      (x - (round x : ℚ)) / ((N : ℚ) * uvres) := by
    rw [RT.lm_to_pix, ← hx]
    field_simp
    ring
  rw [h1, abs_div, abs_of_pos hNu]
  have h2 : |x - (round x : ℚ)| ≤ 1 / 2 := abs_sub_round x
  have h3 : |x - (round x : ℚ)| / ((N : ℚ) * uvres) ≤ (1 / 2) / ((N : ℚ) * uvres) :=
    (div_le_div_iff_of_pos_right hNu).mpr h2
  have h4 : (1 / 2 : ℚ) / ((N : ℚ) * uvres) ≤ 1 / ((N : ℚ) * uvres) :=
    (div_le_div_iff_of_pos_right hNu).mpr (by norm_num)
  exact h3.trans h4

/-- C7: for an `N×N` image, converting direction cosines `(l, m)` to the
pixel `(N/2 − l·N·uv_res, N/2 − m·N·uv_res)` (rounded to the grid) and back
through `calc_lm` (`l = (npixx/2 − x)/(npixx·uvres)`,
`m = (npixy/2 − y)/(npixy·uvres)`) recovers `(l, m)` to within
`1/(N·uv_res)`. -/
theorem calc_lm_roundtrip (uvres : ℚ) (N : ℕ) (im : List (List ℚ)) (l m : ℚ)
    (hx : im.length = N) (hy : (im.getD 0 []).length = N)
    (hN : 0 < N) (hu : 0 < uvres) :
    |(RT.calc_lm uvres im (some (RT.lm_to_pix uvres N l, RT.lm_to_pix uvres N m)) true).1 - l| ≤
        1 / ((N : ℚ) * uvres) ∧
    |(RT.calc_lm uvres im (some (RT.lm_to_pix uvres N l, RT.lm_to_pix uvres N m)) true).2 - m| ≤
        1 / ((N : ℚ) * uvres) := by
  have h1 : (RT.calc_lm uvres im (some (RT.lm_to_pix uvres N l, RT.lm_to_pix uvres N m)) true).1 =
      ((im.length : ℚ) / 2 - (RT.lm_to_pix uvres N l : ℚ)) / ((im.length : ℚ) * uvres) := rfl
  have h2 : (RT.calc_lm uvres im (some (RT.lm_to_pix uvres N l, RT.lm_to_pix uvres N m)) true).2 =
      (((im.getD 0 []).length : ℚ) / 2 - (RT.lm_to_pix uvres N m : ℚ)) /
        (((im.getD 0 []).length : ℚ) * uvres) := rfl
  rw [hx] at h1
  rw [hy] at h2
  exact ⟨h1 ▸ calc_lm_component_roundtrip uvres N l hN hu,
         h2 ▸ calc_lm_component_roundtrip uvres N m hN hu⟩

/-- Witness for C7: a concrete 2×2 image, `uv_res = 1`, `(l, m) = (1/4, 0)`. -/
theorem calc_lm_roundtrip_witness :
    |(RT.calc_lm 1 [[0, 0], [0, 0]]
        (some (RT.lm_to_pix 1 2 (1 / 4), RT.lm_to_pix 1 2 0)) true).1 - 1 / 4| ≤
        1 / ((2 : ℚ) * 1) ∧
    |(RT.calc_lm 1 [[0, 0], [0, 0]]
        (some (RT.lm_to_pix 1 2 (1 / 4), RT.lm_to_pix 1 2 0)) true).2 - 0| ≤
        1 / ((2 : ℚ) * 1) :=
  calc_lm_roundtrip 1 2 [[0, 0], [0, 0]] (1 / 4) 0 rfl rfl (by norm_num) (by norm_num)

/-! ### Chunked range partitions (RT.py `search`, lines 352 and 361) -/

/-- For a monotone sequence of cut points `f`, the half-open intervals
`[f t, f (t+1))`, `t < T`, cover exactly `[f 0, f T)`. -/
theorem chunks_cover {α : Type} [LinearOrder α] (f : ℕ → α)
    (hf : ∀ i, f i ≤ f (i + 1)) (T : ℕ) (x : α) :
    (∃ t, t < T ∧ f t ≤ x ∧ x < f (t + 1)) ↔ (f 0 ≤ x ∧ x < f T) := by
  have hmono : Monotone f := monotone_nat_of_le_succ hf
  induction T with
  | zero =>
    constructor
    · rintro ⟨t, ht, -⟩
      exact absurd ht (Nat.not_lt_zero t)
    · rintro ⟨h1, h2⟩
      exact absurd (h1.trans_lt h2) (lt_irrefl _)
  | succ T ih =>
    constructor
    · rintro ⟨t, ht, h1, h2⟩
      rcases Nat.lt_succ_iff_lt_or_eq.mp ht with ht' | rfl
      · have h := ih.mp ⟨t, ht', h1, h2⟩
        exact ⟨h.1, h.2.trans_le (hmono (Nat.le_succ T))⟩
      · exact ⟨(hmono (Nat.zero_le t)).trans h1, h2⟩
    · rintro ⟨h0, hT⟩
      by_cases hx : x < f T
      · obtain ⟨t, ht, h⟩ := ih.mpr ⟨h0, hx⟩
        exact ⟨t, ht.trans (Nat.lt_succ_self T), h⟩
      · exact ⟨T, Nat.lt_succ_self T, le_of_not_lt hx, hT⟩

/-- For a monotone sequence of cut points, the intervals `[f t, f (t+1))` are
pairwise disjoint: a point determines its chunk index. -/
theorem chunks_unique {α : Type} [LinearOrder α] (f : ℕ → α)
    (hf : ∀ i, f i ≤ f (i + 1)) (x : α) (s t : ℕ)
    (hs1 : f s ≤ x) (hs2 : x < f (s + 1)) (ht1 : f t ≤ x) (ht2 : x < f (t + 1)) :
    s = t := by
  have hmono : Monotone f := monotone_nat_of_le_succ hf
  by_contra hne
  rcases Nat.lt_or_ge s t with h | h
  · exact absurd (hs2.trans_le ((hmono (Nat.succ_le_of_lt h)).trans ht1)) (lt_irrefl x)
  · have h' : t < s := lt_of_le_of_ne h (Ne.symm hne)
    exact absurd (ht2.trans_le ((hmono (Nat.succ_le_of_lt h')).trans hs1)) (lt_irrefl x)

namespace RT

/-- The per-thread baseline ranges of RT.py `search`:
`[(nbl*t/nthread, nbl*(t+1)/nthread) for t in range(nthread)]`. -/
def blranges (nbl nthread : ℕ) : List (ℕ × ℕ) :=
  (List.range nthread).map (fun t => (nbl * t / nthread, nbl * (t + 1) / nthread))

/-- RT.py `search`: `nskip_dm = ((datadelay[-1] - datadelay[dmind]) /
dtarr[dtind]) * (segment != 0)`. -/
def nskip_dm_of (datadelay : List ℤ) (dmind : ℕ) (dt : ℤ) (segment : ℕ) : ℤ :=
  if segment ≠ 0 then (datadelay.getLastD 0 - datadelay.getD dmind 0) / dt else 0

/-- RT.py `search`: `searchints = (readints - datadelay[dmind]) /
dtarr[dtind] - nskip_dm`. -/
def searchints_of (datadelay : List ℤ) (readints : ℤ) (dmind : ℕ) (dt : ℤ)
    (segment : ℕ) : ℤ :=
  (readints - datadelay.getD dmind 0) / dt - nskip_dm_of datadelay dmind dt segment

/-- The per-chunk imaging ranges of RT.py `search`:
`[(nskip_dm + searchints*chunk/nchunk, nskip_dm + searchints*(chunk+1)/nchunk)
for chunk in range(nchunk)]`. -/
def iranges (nskip si : ℤ) (nchunk : ℕ) : List (ℤ × ℤ) :=
  (List.range nchunk).map
    (fun c : ℕ =>
      (nskip + si * (c : ℤ) / (nchunk : ℤ), nskip + si * ((c + 1 : ℕ) : ℤ) / (nchunk : ℤ)))

end RT

/-- The imaging cut-point sequence is monotone when `searchints ≥ 0`. -/
theorem irange_cut_mono (nskip si : ℤ) (nchunk : ℕ) (hnc : 0 < nchunk) (hsi : 0 ≤ si)
    (i : ℕ) :
    nskip + si * (i : ℤ) / (nchunk : ℤ) ≤ nskip + si * ((i + 1 : ℕ) : ℤ) / (nchunk : ℤ) := by
  have hK : (0 : ℤ) < (nchunk : ℤ) := by exact_mod_cast hnc
  refine add_le_add_left (Int.ediv_le_ediv hK ?_) nskip
  have : (i : ℤ) ≤ ((i + 1 : ℕ) : ℤ) := by exact_mod_cast Nat.le_succ i
  exact mul_le_mul_of_nonneg_left this hsi

/-- Endpoint values of the imaging cut-point sequence. -/
theorem irange_cut_ends (nskip si : ℤ) (nchunk : ℕ) (hnc : 0 < nchunk) :
    nskip + si * ((0 : ℕ) : ℤ) / (nchunk : ℤ) = nskip ∧
    nskip + si * ((nchunk : ℕ) : ℤ) / (nchunk : ℤ) = nskip + si := by
  have hK : ((nchunk : ℤ)) ≠ 0 := by exact_mod_cast hnc.ne'
  constructor
  · simp
  · rw [Int.mul_ediv_cancel si hK]

/-- The imaging chunk intervals cover exactly `[nskip, nskip + searchints)`. -/
theorem iranges_cover_iff (nskip si : ℤ) (nchunk : ℕ) (hnc : 0 < nchunk) (hsi : 0 ≤ si)
    (x : ℤ) :
    (∃ c : ℕ, c < nchunk ∧ nskip + si * (c : ℤ) / (nchunk : ℤ) ≤ x ∧
        x < nskip + si * ((c + 1 : ℕ) : ℤ) / (nchunk : ℤ)) ↔
      (nskip ≤ x ∧ x < nskip + si) := by
  have h := chunks_cover (fun c : ℕ => nskip + si * (c : ℤ) / (nchunk : ℤ))
    (fun i => irange_cut_mono nskip si nchunk hnc hsi i) nchunk x
  obtain ⟨he0, heT⟩ := irange_cut_ends nskip si nchunk hnc
  simp only [] at h
  rw [he0, heT] at h
  exact h

/-- Membership of a pair in `iranges` is membership at some chunk index. -/
theorem mem_iranges_iff (nskip si : ℤ) (nchunk : ℕ) (pr : ℤ × ℤ) :
    pr ∈ RT.iranges nskip si nchunk ↔
      ∃ c : ℕ, c < nchunk ∧ pr = (nskip + si * (c : ℤ) / (nchunk : ℤ),
        nskip + si * ((c + 1 : ℕ) : ℤ) / (nchunk : ℤ)) := by
  rw [RT.iranges, List.mem_map]
  constructor
  · rintro ⟨c, hc, rfl⟩
    exact ⟨c, List.mem_range.mp hc, rfl⟩
  · rintro ⟨c, hc, rfl⟩
    exact ⟨c, List.mem_range.mpr hc, rfl⟩

/-- C2: in `search`, for every `(dmind, dtind)` pair the valid integration
range satisfies `nskip_dm = (datadelay[-1] − datadelay[dmind]) / dtarr[dtind]`
for a nonzero segment index and `nskip_dm = 0` for segment 0;
`searchints = (readints − datadelay[dmind]) / dtarr[dtind] − nskip_dm`
(floor division); and the imaged integrations — the union of the per-chunk
ranges handed to `image1` — are exactly `[nskip_dm, nskip_dm + searchints)`. -/
theorem search_valid_int_range (datadelay : List ℤ) (readints : ℤ) (dmind : ℕ) (dt : ℤ)
    (segment nchunk : ℕ) (hnc : 0 < nchunk)
    (hsi : 0 ≤ RT.searchints_of datadelay readints dmind dt segment) :
    (segment = 0 → RT.nskip_dm_of datadelay dmind dt segment = 0) ∧
    (segment ≠ 0 → RT.nskip_dm_of datadelay dmind dt segment =
      (datadelay.getLastD 0 - datadelay.getD dmind 0) / dt) ∧
    (RT.searchints_of datadelay readints dmind dt segment =
      (readints - datadelay.getD dmind 0) / dt -
        RT.nskip_dm_of datadelay dmind dt segment) ∧
    (∀ x : ℤ,
      (∃ pr ∈ RT.iranges (RT.nskip_dm_of datadelay dmind dt segment)
          (RT.searchints_of datadelay readints dmind dt segment) nchunk,
        pr.1 ≤ x ∧ x < pr.2) ↔
      (RT.nskip_dm_of datadelay dmind dt segment ≤ x ∧
        x < RT.nskip_dm_of datadelay dmind dt segment +
          RT.searchints_of datadelay readints dmind dt segment)) := by
  refine ⟨fun h => by simp [RT.nskip_dm_of, h], fun h => by simp [RT.nskip_dm_of, h],
    rfl, ?_⟩
  intro x
  rw [← iranges_cover_iff (RT.nskip_dm_of datadelay dmind dt segment)
    (RT.searchints_of datadelay readints dmind dt segment) nchunk hnc hsi x]
  constructor
  · rintro ⟨pr, hpr, h1, h2⟩
    obtain ⟨c, hc, rfl⟩ := (mem_iranges_iff _ _ _ pr).mp hpr
    exact ⟨c, hc, h1, h2⟩
  · rintro ⟨c, hc, h1, h2⟩
    exact ⟨_, (mem_iranges_iff _ _ _ _).mpr ⟨c, hc, rfl⟩, h1, h2⟩

/-- Witness for C2 at a concrete state: `datadelay = [0, 6]`, `readints = 20`,
`dmind = 1`, `dt = 2`, `segment = 1`, two chunks. -/
theorem search_valid_int_range_witness :
    (((1 : ℕ) = 0) → RT.nskip_dm_of [0, 6] 1 2 1 = 0) ∧
    (((1 : ℕ) ≠ 0) → RT.nskip_dm_of [0, 6] 1 2 1 =
      (([0, 6] : List ℤ).getLastD 0 - ([0, 6] : List ℤ).getD 1 0) / 2) ∧
    (RT.searchints_of [0, 6] 20 1 2 1 =
      (20 - ([0, 6] : List ℤ).getD 1 0) / 2 - RT.nskip_dm_of [0, 6] 1 2 1) ∧
    (∀ x : ℤ,
      (∃ pr ∈ RT.iranges (RT.nskip_dm_of [0, 6] 1 2 1)
          (RT.searchints_of [0, 6] 20 1 2 1) 2, pr.1 ≤ x ∧ x < pr.2) ↔
      (RT.nskip_dm_of [0, 6] 1 2 1 ≤ x ∧
        x < RT.nskip_dm_of [0, 6] 1 2 1 + RT.searchints_of [0, 6] 20 1 2 1)) :=
  search_valid_int_range [0, 6] 20 1 2 1 2 (by decide) (by decide)

/-- Index lookup in a range-mapped list. -/
theorem getD_map_range {α : Type} (f : ℕ → α) (n t : ℕ) (d : α) (ht : t < n) :
    ((List.range n).map f).getD t d = f t := by
  rw [List.getD_eq_getElem?_getD, List.getElem?_map, List.getElem?_range ht]
  rfl

/-- C9: per `(dm, dt)` pair, the baseline ranges
`(nbl·t/nthread, nbl·(t+1)/nthread)` are consecutive, pairwise disjoint and
cover exactly `[0, nbl)` — every baseline is dedispersed exactly once — and
the imaging ranges `(nskip_dm + searchints·c/nchunk, …·(c+1)/nchunk)` cover
exactly `[nskip_dm, nskip_dm + searchints)` — every valid integration is
imaged exactly once. -/
theorem search_partition_exactly_once (nbl nthread nchunk : ℕ) (nskip si : ℤ)
    (hnt : 0 < nthread) (hnc : 0 < nchunk) (hsi : 0 ≤ si) :
    (∀ t, t < nthread → (RT.blranges nbl nthread).getD t (0, 0) =
      (nbl * t / nthread, nbl * (t + 1) / nthread)) ∧
    (∀ t, (nbl * t / nthread, nbl * (t + 1) / nthread).2 =
      (nbl * (t + 1) / nthread, nbl * (t + 2) / nthread).1) ∧
    (∀ x, x < nbl →
      ∃! t, t < nthread ∧ nbl * t / nthread ≤ x ∧ x < nbl * (t + 1) / nthread) ∧
    (∀ c : ℕ, c < nchunk → (RT.iranges nskip si nchunk).getD c (0, 0) =
      (nskip + si * (c : ℤ) / (nchunk : ℤ),
        nskip + si * ((c + 1 : ℕ) : ℤ) / (nchunk : ℤ))) ∧
    (∀ x : ℤ, nskip ≤ x → x < nskip + si →
      ∃! c : ℕ, c < nchunk ∧ nskip + si * (c : ℤ) / (nchunk : ℤ) ≤ x ∧
        x < nskip + si * ((c + 1 : ℕ) : ℤ) / (nchunk : ℤ)) := by
  have hg : ∀ i, nbl * i / nthread ≤ nbl * (i + 1) / nthread :=
    fun i => Nat.div_le_div_right (Nat.mul_le_mul_left nbl (Nat.le_succ i))
  have hfI : ∀ i : ℕ, nskip + si * (i : ℤ) / (nchunk : ℤ) ≤
      nskip + si * ((i + 1 : ℕ) : ℤ) / (nchunk : ℤ) :=
    fun i => irange_cut_mono nskip si nchunk hnc hsi i
  refine ⟨?_, fun t => rfl, ?_, ?_, ?_⟩
  · intro t ht
    exact getD_map_range _ nthread t (0, 0) ht
  · intro x hx
    have hcov := (chunks_cover (fun t => nbl * t / nthread) hg nthread x).mpr
      (by
        constructor
        · simp
        · rwa [Nat.mul_div_cancel nbl hnt])
    obtain ⟨t, ht, h1, h2⟩ := hcov
    refine ⟨t, ⟨ht, h1, h2⟩, ?_⟩
    rintro s ⟨hs, hs1, hs2⟩
    exact chunks_unique (fun t => nbl * t / nthread) hg x s t hs1 hs2 h1 h2
  · intro c hc
    unfold RT.iranges
    exact getD_map_range _ nchunk c (0, 0) hc
  · intro x hx1 hx2
    have hcov := (iranges_cover_iff nskip si nchunk hnc hsi x).mpr ⟨hx1, hx2⟩
    obtain ⟨c, hc, h1, h2⟩ := hcov
    refine ⟨c, ⟨hc, h1, h2⟩, ?_⟩
    rintro s ⟨hs, hs1, hs2⟩
    exact chunks_unique (fun c : ℕ => nskip + si * (c : ℤ) / (nchunk : ℤ)) hfI x s c hs1 hs2 h1 h2

/-- Witness for C9: `nbl = 10`, `nthread = 3`, `nchunk = 2`, a concrete
nonnegative searchints interval. -/
theorem search_partition_exactly_once_witness :
    (∀ t, t < 3 → (RT.blranges 10 3).getD t (0, 0) = (10 * t / 3, 10 * (t + 1) / 3)) ∧
    (∀ t, ((10 * t / 3, 10 * (t + 1) / 3) : ℕ × ℕ).2 =
      ((10 * (t + 1) / 3, 10 * (t + 2) / 3) : ℕ × ℕ).1) ∧
    (∀ x, x < 10 → ∃! t, t < 3 ∧ 10 * t / 3 ≤ x ∧ x < 10 * (t + 1) / 3) ∧
    (∀ c : ℕ, c < 2 → (RT.iranges 4 7 2).getD c (0, 0) =
      (4 + 7 * (c : ℤ) / (2 : ℤ), 4 + 7 * ((c + 1 : ℕ) : ℤ) / (2 : ℤ))) ∧
    (∀ x : ℤ, 4 ≤ x → x < 4 + 7 →
      ∃! c : ℕ, c < 2 ∧ 4 + 7 * (c : ℤ) / (2 : ℤ) ≤ x ∧
        x < 4 + 7 * ((c + 1 : ℕ) : ℤ) / (2 : ℤ)) := by
  have h := search_partition_exactly_once 10 3 2 4 7 (by decide) (by decide) (by decide)
  exact ⟨h.1, h.2.1, h.2.2.1, by exact_mod_cast h.2.2.2.1, by exact_mod_cast h.2.2.2.2⟩

namespace RT

/-! ### Two-stage imaging (RT.py `image2`) -/

/-- Population variance of the pixels of an image (`numpy` `.std()` squared). -/
def imVar (im : List (List ℚ)) : ℚ :=
  let fl := im.flatten
  let mu := fl.sum / (fl.length : ℚ)
  (fl.map (fun x => (x - mu) ^ 2)).sum / (fl.length : ℚ)

/-- The `snr2` computed by RT.py `image2` from the second-stage image `im2`
and the value `std2` of `im2.std()`:
`snrmax = im2.max()/im2.std()`, `snrmin = im2.min()/im2.std()`,
`snr2 = snrmax if snrmax >= abs(snrmin) else snrmin`. -/
def snr2Of (im2 : List (List ℚ)) (std2 : ℚ) : ℚ :=
  let snrmax := listMax im2.flatten / std2
  let snrmin := listMin im2.flatten / std2
  if |snrmin| ≤ snrmax then snrmax else snrmin

/-- The feature tuple assembled by RT.py `image2` in the declared order of
`d['features']` (unrecognised names contribute nothing). -/
def image2feat (features : List String) (snr1 : ℚ) (im1 im2 : List (List ℚ))
    (snr2 : ℚ) (lm1 lm2 : ℚ × ℚ) : List ℚ :=
  features.foldl
    (fun ff f =>
      if f = "snr1" then ff ++ [snr1]
      else if f = "immax1" then
        ff ++ [if 0 < snr1 then listMax im1.flatten else listMin im1.flatten]
      else if f = "l1" then ff ++ [lm1.1]
      else if f = "m1" then ff ++ [lm1.2]
      else if f = "snr2" then ff ++ [snr2]
      else if f = "immax2" then
        ff ++ [if 0 < snr2 then listMax im2.flatten else listMin im2.flatten]
      else if f = "l2" then ff ++ [lm2.1]
      else if f = "m2" then ff ++ [lm2.2]
      else ff)
    []

/-- Embeds the per-candidate body of RT.py `image2`: from the second-stage
image `im2` (returned by the external `rtlib.imgonefullxy` at full resolution)
and the value `std2` of `im2.std()`, compute `snr2`; if
`abs(snr2) > d['sigma_image2']` locate the peaks via `calc_lm` and emit the
feature tuple, else emit nothing. -/
def image2cand (uvres sigma_image2 : ℚ) (features : List String) (snr1 : ℚ)
    (im1 im2 : List (List ℚ)) (std2 : ℚ) : Option (List ℚ) :=
  let snr2 := snr2Of im2 std2
  if sigma_image2 < |snr2| then
    let lm1 := if 0 < snr1 then calc_lm uvres im1 none true else calc_lm uvres im1 none false
    let lm2 := if 0 < snr2 then calc_lm uvres im2 none true else calc_lm uvres im2 none false
    some (image2feat features snr1 im1 im2 snr2 lm1 lm2)
  else none

end RT

/-- C4 (amended): in two-stage imaging, `snr2` is the most extreme pixel of
the full-resolution image divided by its standard deviation (the maximum if
`max/σ ≥ |min/σ|`, else the minimum), and the candidate is kept — with the
features `snr2, immax2, l2, m2` in that order — exactly when
`|snr2| > sigma_image2` STRICTLY; at `|snr2| = sigma_image2` it is discarded
and no record is emitted.  (`std2` is the value of `im2.std()`: nonnegative
with square the population variance of `im2`.) -/
theorem image2_keep_iff (uvres sigma2 snr1 std2 : ℚ) (im1 im2 : List (List ℚ))
    (fs : List String) (hstd : 0 < std2) (hv : std2 ^ 2 = RT.imVar im2) :
    RT.snr2Of im2 std2 =
      (if |RT.listMin im2.flatten / std2| ≤ RT.listMax im2.flatten / std2 then
        RT.listMax im2.flatten / std2 else RT.listMin im2.flatten / std2) ∧
    ((RT.image2cand uvres sigma2 fs snr1 im1 im2 std2).isSome ↔
      sigma2 < |RT.snr2Of im2 std2|) ∧
    (sigma2 < |RT.snr2Of im2 std2| →
      RT.image2cand uvres sigma2 ["snr2", "immax2", "l2", "m2"] snr1 im1 im2 std2 =
        some [RT.snr2Of im2 std2,
          (if 0 < RT.snr2Of im2 std2 then RT.listMax im2.flatten else RT.listMin im2.flatten),
          (if 0 < RT.snr2Of im2 std2 then RT.calc_lm uvres im2 none true
            else RT.calc_lm uvres im2 none false).1,
          (if 0 < RT.snr2Of im2 std2 then RT.calc_lm uvres im2 none true
            else RT.calc_lm uvres im2 none false).2]) ∧
    (¬ sigma2 < |RT.snr2Of im2 std2| →
      RT.image2cand uvres sigma2 fs snr1 im1 im2 std2 = none) := by
  refine ⟨rfl, ?_, ?_, ?_⟩
  · unfold RT.image2cand
    by_cases h : sigma2 < |RT.snr2Of im2 std2|
    · simp [h]
    · simp [h]
  · intro h
    unfold RT.image2cand
    rw [if_pos h]
    rfl
  · intro h
    unfold RT.image2cand
    rw [if_neg h]

/-- Witness for C4: a two-pixel image `[[1, −1]]` has variance 1, `std2 = 1`,
`snr2 = 1`; with `sigma_image2 = 1/2` the candidate is kept and the record is
`[snr2, immax2, l2, m2]`. -/
theorem image2_keep_iff_witness :
    RT.snr2Of [[1, -1]] 1 =
      (if |RT.listMin ([[1, -1]] : List (List ℚ)).flatten / 1| ≤
          RT.listMax ([[1, -1]] : List (List ℚ)).flatten / 1 then
        RT.listMax ([[1, -1]] : List (List ℚ)).flatten / 1
      else RT.listMin ([[1, -1]] : List (List ℚ)).flatten / 1) ∧
    ((RT.image2cand 1 (1 / 2) ["snr2"] 5 [[1, -1]] [[1, -1]] 1).isSome ↔
      (1 / 2 : ℚ) < |RT.snr2Of [[1, -1]] 1|) ∧
    ((1 / 2 : ℚ) < |RT.snr2Of [[1, -1]] 1| →
      RT.image2cand 1 (1 / 2) ["snr2", "immax2", "l2", "m2"] 5 [[1, -1]] [[1, -1]] 1 =
        some [RT.snr2Of [[1, -1]] 1,
          (if 0 < RT.snr2Of [[1, -1]] 1 then RT.listMax ([[1, -1]] : List (List ℚ)).flatten
            else RT.listMin ([[1, -1]] : List (List ℚ)).flatten),
          (if 0 < RT.snr2Of [[1, -1]] 1 then RT.calc_lm 1 [[1, -1]] none true
            else RT.calc_lm 1 [[1, -1]] none false).1,
          (if 0 < RT.snr2Of [[1, -1]] 1 then RT.calc_lm 1 [[1, -1]] none true
            else RT.calc_lm 1 [[1, -1]] none false).2]) ∧
    (¬ (1 / 2 : ℚ) < |RT.snr2Of [[1, -1]] 1| →
      RT.image2cand 1 (1 / 2) ["snr2"] 5 [[1, -1]] [[1, -1]] 1 = none) :=
  image2_keep_iff 1 (1 / 2) 5 1 [[1, -1]] [[1, -1]] ["snr2"] (by norm_num)
    (by norm_num [RT.imVar])

/-- Counterexample for C4 as stated: at the boundary `|snr2| = sigma_image2`
(image `[[1, −1]]`, `std2 = im2.std() = 1`, `snr2 = 1`, `sigma_image2 = 1`)
the claim keeps the candidate (`|snr2| ≥ sigma_image2`), but the code
(`abs(snr2) > d['sigma_image2']`) discards it and emits no record. -/
theorem image2_boundary_counterexample :
    RT.imVar [[1, -1]] = 1 ∧
    RT.snr2Of [[1, -1]] 1 = 1 ∧
    (1 : ℚ) ≤ |RT.snr2Of [[1, -1]] 1| ∧
    RT.image2cand 1 1 ["snr2", "immax2", "l2", "m2"] 5 [[1, -1]] [[1, -1]] 1 = none := by
  have h1 : RT.imVar [[1, -1]] = 1 := by norm_num [RT.imVar]
  have h2 : RT.snr2Of [[1, -1]] 1 = 1 := by norm_num [RT.snr2Of, RT.listMax, RT.listMin]
  refine ⟨h1, h2, by rw [h2]; norm_num, ?_⟩
  unfold RT.image2cand
  rw [if_neg]
  rw [h2]
  norm_num

namespace RT

/-! ### DM grid planning (RT.py `calc_dmgrid`) -/

/-- The scalar parameters `calc_dmgrid` derives from the state: `dtp` is the
function argument `dt` (assumed pulse width, µs, default 3000),
`tsamp = inttime*1e6` (µs), `freqm = freq.mean()` (GHz),
`bw = 1e3*(freq[-1]-freq[0])` (MHz), `ch = 1e3*(freq[1]-freq[0])` (MHz). -/
structure DmParams where
  dtp : ℚ
  tsamp : ℚ
  freqm : ℚ
  bw : ℚ
  ch : ℚ

/-- Derivation of the `calc_dmgrid` locals from `d['inttime']`, `d['freq']`
and the `dt` argument. -/
def dmParamsOf (dtp inttime : ℚ) (freq : List ℚ) : DmParams where
  dtp := dtp
  tsamp := inttime * 1000000
  freqm := freq.sum / (freq.length : ℚ)
  bw := 1000 * (freq.getLastD 0 - freq.getD 0 0)
  ch := 1000 * (freq.getD 1 0 - freq.getD 0 0)

/-- The radicand of the source lambda
`dt0 = lambda dm: sqrt(dt**2 + tsamp**2 + ((k*dm*ch)/(freq**3))**2)`,
with `k = 8.3`. -/
def dt0sq (p : DmParams) (dm : ℚ) : ℚ :=
  p.dtp ^ 2 + p.tsamp ^ 2 + ((83 / 10) * dm * p.ch / p.freqm ^ 3) ^ 2

/-- The radicand of the source lambda `dt1 = lambda dm, ddm:
sqrt(dt**2 + tsamp**2 + ((k*dm*ch)/(freq**3))**2 + ((k*ddm*bw)/(freq**3.))**2)`. -/
def dt1sq (p : DmParams) (dm ddm : ℚ) : ℚ :=
  p.dtp ^ 2 + p.tsamp ^ 2 + ((83 / 10) * dm * p.ch / p.freqm ^ 3) ^ 2 +
    ((83 / 10) * ddm * p.bw / p.freqm ^ 3) ^ 2

/-- The source width function `dt0(dm)` (exact-real square root). -/
noncomputable def dt0 (p : DmParams) (dm : ℚ) : ℝ :=
  Real.sqrt ((dt0sq p dm : ℚ) : ℝ)

/-- The source width function `dt1(dm, ddm)` (exact-real square root). -/
noncomputable def dt1 (p : DmParams) (dm ddm : ℚ) : ℝ :=
  Real.sqrt ((dt1sq p dm ddm : ℚ) : ℝ)

/-- The source sensitivity-loss function
`loss = lambda dm, ddm: 1 - sqrt(dt0(dm)/dt1(dm, ddm))`. -/
noncomputable def loss (p : DmParams) (dm ddm : ℚ) : ℝ :=
  1 - Real.sqrt (dt0 p dm / dt1 p dm ddm)

/-- Exact decision procedure for the branch `loss(dm, ddm) > maxloss` of the
source: since `loss = 1 − (dt0sq/dt1sq)^(1/4)`, the comparison is equivalent
(for `dt0sq > 0`, see `lossGtB_iff`) to the rational test
`maxloss < 1 ∧ dt0sq < (1−maxloss)⁴·dt1sq`. -/
def lossGtB (p : DmParams) (maxloss dm ddm : ℚ) : Bool :=
  decide (maxloss < 1 ∧ dt0sq p dm < (1 - maxloss) ^ 4 * dt1sq p dm ddm)

end RT

/-- `dt1sq` adds a square to `dt0sq`. -/
theorem dt1sq_eq_add (p : RT.DmParams) (dm ddm : ℚ) :
    RT.dt1sq p dm ddm = RT.dt0sq p dm + ((83 / 10) * ddm * p.bw / p.freqm ^ 3) ^ 2 := by
  unfold RT.dt0sq RT.dt1sq
  ring

/-- `dt0sq` dominates below `dt1sq`. -/
theorem dt0sq_le_dt1sq (p : RT.DmParams) (dm ddm : ℚ) :
    RT.dt0sq p dm ≤ RT.dt1sq p dm ddm := by
  rw [dt1sq_eq_add]
  exact le_add_of_nonneg_right (sq_nonneg _)

/-- `dt0sq` is positive whenever the assumed pulse width is nonzero. -/
theorem dt0sq_pos (p : RT.DmParams) (hdtp : 0 < p.dtp) (dm : ℚ) : 0 < RT.dt0sq p dm := by
  unfold RT.dt0sq
  have h1 : 0 < p.dtp ^ 2 := by positivity
  have h2 : 0 ≤ p.tsamp ^ 2 := sq_nonneg _
  have h3 : 0 ≤ ((83 / 10) * dm * p.ch / p.freqm ^ 3) ^ 2 := sq_nonneg _
  linarith

/-- The rational test `lossGtB` decides the source's real comparison
`loss(dm, ddm) > maxloss` exactly. -/
theorem lossGtB_iff (p : RT.DmParams) (maxloss dm ddm : ℚ)
    (hA : 0 < RT.dt0sq p dm) :
    RT.lossGtB p maxloss dm ddm = true ↔ (maxloss : ℝ) < RT.loss p dm ddm := by
  have hAB : RT.dt0sq p dm ≤ RT.dt1sq p dm ddm := dt0sq_le_dt1sq p dm ddm
  have hB : 0 < RT.dt1sq p dm ddm := lt_of_lt_of_le hA hAB
  have haR : (0 : ℝ) < ((RT.dt0sq p dm : ℚ) : ℝ) := by exact_mod_cast hA
  have hbR : (0 : ℝ) < ((RT.dt1sq p dm ddm : ℚ) : ℝ) := by exact_mod_cast hB
  have hdiv : RT.dt0 p dm / RT.dt1 p dm ddm =
      Real.sqrt (((RT.dt0sq p dm : ℚ) : ℝ) / ((RT.dt1sq p dm ddm : ℚ) : ℝ)) := by
    unfold RT.dt0 RT.dt1
    rw [Real.sqrt_div haR.le]
  have hloss : RT.loss p dm ddm =
      1 - Real.sqrt (Real.sqrt (((RT.dt0sq p dm : ℚ) : ℝ) / ((RT.dt1sq p dm ddm : ℚ) : ℝ))) := by
    unfold RT.loss
    rw [hdiv]
  rw [hloss]
  have hstep : ((maxloss : ℝ) <
      1 - Real.sqrt (Real.sqrt (((RT.dt0sq p dm : ℚ) : ℝ) / ((RT.dt1sq p dm ddm : ℚ) : ℝ)))) ↔
      Real.sqrt (Real.sqrt (((RT.dt0sq p dm : ℚ) : ℝ) / ((RT.dt1sq p dm ddm : ℚ) : ℝ))) <
        1 - (maxloss : ℝ) := by
    constructor <;> intro h <;> linarith
  rw [hstep]
  unfold RT.lossGtB
  rw [decide_eq_true_eq]
  by_cases hm : maxloss < 1
  · have hy : (0 : ℝ) < 1 - (maxloss : ℝ) := by
      have : (maxloss : ℝ) < 1 := by exact_mod_cast hm
      linarith
    rw [Real.sqrt_lt' hy, Real.sqrt_lt' (pow_pos hy 2)]
    have hpow : ((1 - (maxloss : ℝ)) ^ 2) ^ 2 = (((1 - maxloss) ^ 4 : ℚ) : ℝ) := by
      push_cast
      ring
    rw [hpow, div_lt_iff₀ hbR]
    constructor
    · rintro ⟨-, h⟩
      exact_mod_cast h
    · intro h
      exact ⟨hm, by exact_mod_cast h⟩
  · have hy : 1 - (maxloss : ℝ) ≤ 0 := by
      have : (1 : ℝ) ≤ (maxloss : ℝ) := by exact_mod_cast not_lt.mp hm
      linarith
    constructor
    · rintro ⟨h, -⟩
      exact absurd h hm
    · intro h
      have h0 := lt_of_lt_of_le h hy
      exact absurd h0 (not_lt.mpr (Real.sqrt_nonneg _))

/-- At `ddm = 0` the loss test is false for any nonnegative `maxloss`
(a trial equal to the current last DM is never re-appended). -/
theorem lossGtB_zero (p : RT.DmParams) (maxloss t : ℚ) (hml : 0 ≤ maxloss) :
    RT.lossGtB p maxloss t 0 = false := by
  unfold RT.lossGtB
  rw [decide_eq_false_iff_not]
  rintro ⟨hm1, hlt⟩
  have heq : RT.dt1sq p t 0 = RT.dt0sq p t := by
    rw [dt1sq_eq_add]
    norm_num
  rw [heq] at hlt
  have hA : 0 ≤ RT.dt0sq p t := by
    unfold RT.dt0sq
    positivity
  have hc1 : (1 - maxloss) ^ 4 ≤ 1 := by
    have h0 : 0 ≤ 1 - maxloss := by linarith
    have h1 : 1 - maxloss ≤ 1 := by linarith
    calc (1 - maxloss) ^ 4 ≤ 1 ^ 4 := pow_le_pow_left h0 h1 4
    _ = 1 := one_pow 4
  nlinarith

namespace RT

/-- The fine trial grid `dmgrid = n.arange(mindm, maxdm, 0.05)` of
`calc_dmgrid`: `⌈(maxdm−mindm)/0.05⌉` points starting at `mindm`, step 1/20. -/
def dmgrid (mindm maxdm : ℚ) : List ℚ :=
  (List.range (⌈(maxdm - mindm) / (1 / 20)⌉.toNat)).map
    (fun i : ℕ => mindm + (1 / 20) * (i : ℚ))

/-- The accumulation loop of `calc_dmgrid`: for each trial `t` in order, with
`last` the last appended DM, append `t` exactly when
`cond t ((t - last)/2)` holds (`cond` is the `loss(dm, ddm) > maxloss` test). -/
def dmloop (cond : ℚ → ℚ → Bool) : List ℚ → ℚ → List ℚ
  | [], _ => []
  | t :: rest, last =>
    if cond t ((t - last) / 2) then t :: dmloop cond rest t else dmloop cond rest last

/-- Embeds RT.py `calc_dmgrid(d, maxloss, dt, mindm, maxdm)`.  Returns
`none` when the source would raise (`dmgrid[0]` of an empty trial grid,
i.e. `maxdm ≠ 0` with `maxdm ≤ mindm`). -/
def calc_dmgrid (inttime : ℚ) (freq : List ℚ) (maxloss dtp mindm maxdm : ℚ) :
    Option (List ℚ) :=
  let p := dmParamsOf dtp inttime freq
  if maxdm = 0 then some [0]
  else
    match dmgrid mindm maxdm with
    | [] => none
    | t0 :: rest => some (t0 :: dmloop (fun t ddm => lossGtB p maxloss t ddm) (t0 :: rest) t0)

end RT

/-- Everything `dmloop` appends is a trial. -/
theorem dmloop_subset (cond : ℚ → ℚ → Bool) :
    ∀ (trials : List ℚ) (last x : ℚ), x ∈ RT.dmloop cond trials last → x ∈ trials := by
  intro trials
  induction trials with
  | nil => intro last x hx; simp [RT.dmloop] at hx
  | cons t rest ih =>
    intro last x hx
    rw [RT.dmloop] at hx
    by_cases hc : cond t ((t - last) / 2)
    · rw [if_pos hc] at hx
      rcases List.mem_cons.mp hx with rfl | hx'
      · exact List.mem_cons_self _ _
      · exact List.mem_cons_of_mem t (ih t x hx')
    · rw [if_neg hc] at hx
      exact List.mem_cons_of_mem t (ih last x hx)

/-- `dmloop` preserves strict ordering: the output prefixed by the current
last DM is strictly sorted, provided a trial equal to the last DM is never
appended (`cond t 0 = false`). -/
theorem dmloop_sorted (cond : ℚ → ℚ → Bool) (hc0 : ∀ t, cond t 0 = false) :
    ∀ (trials : List ℚ) (last : ℚ), List.Sorted (· < ·) trials →
      (∀ t ∈ trials, last ≤ t) →
      List.Sorted (· < ·) (last :: RT.dmloop cond trials last) := by
  intro trials
  induction trials with
  | nil => intro last _ _; simp [RT.dmloop]
  | cons t rest ih =>
    intro last hs hl
    have hst : ∀ b ∈ rest, t < b := (List.sorted_cons.mp hs).1
    have hsr : List.Sorted (· < ·) rest := (List.sorted_cons.mp hs).2
    have hlet : last ≤ t := hl t (List.mem_cons_self t rest)
    rw [RT.dmloop]
    by_cases hc : cond t ((t - last) / 2)
    · rw [if_pos hc]
      have hlast_lt : last < t := by
        rcases lt_or_eq_of_le hlet with h | h
        · exact h
        · exfalso
          rw [← h, sub_self, zero_div, hc0 last] at hc
          exact Bool.false_ne_true hc
      have ihs := ih t hsr (fun r hr => le_of_lt (hst r hr))
      rw [List.sorted_cons]
      refine ⟨?_, ihs⟩
      intro b hb
      rcases List.mem_cons.mp hb with rfl | hb'
      · exact hlast_lt
      · exact hlast_lt.trans (hst b (dmloop_subset cond rest t b hb'))
    · rw [if_neg hc]
      exact ih last hsr (fun r hr => hlet.trans (le_of_lt (hst r hr)))

/-- Each appended DM satisfied the append condition against its predecessor
in the output. -/
theorem dmloop_chain (cond : ℚ → ℚ → Bool) :
    ∀ (trials : List ℚ) (last : ℚ),
      List.Chain' (fun a b => cond b ((b - a) / 2) = true)
        (last :: RT.dmloop cond trials last) := by
  intro trials
  induction trials with
  | nil => intro last; simp [RT.dmloop]
  | cons t rest ih =>
    intro last
    rw [RT.dmloop]
    by_cases hc : cond t ((t - last) / 2)
    · rw [if_pos hc]
      exact List.chain'_cons.mpr ⟨hc, ih t⟩
    · rw [if_neg hc]
      exact ih last

/-- Adjacent pairs of a `Chain'` list, through `zip` with the tail. -/
theorem chain'_pairs {α : Type} (R : α → α → Prop) :
    ∀ l : List α, List.Chain' R l → ∀ pr ∈ l.zip l.tail, R pr.1 pr.2 := by
  intro l
  induction l with
  | nil => intro _ pr hpr; simp at hpr
  | cons a l ih =>
    cases l with
    | nil => intro _ pr hpr; simp at hpr
    | cons b t =>
      intro hch pr hpr
      rw [List.chain'_cons] at hch
      rw [List.tail_cons, List.zip_cons_cons] at hpr
      rcases List.mem_cons.mp hpr with rfl | hpr'
      · exact hch.1
      · exact ih hch.2 pr hpr'

/-- Every trial strictly between two adjacent output DMs was examined against
the lower one and failed the append condition. -/
theorem dmloop_skipped (cond : ℚ → ℚ → Bool) :
    ∀ (trials : List ℚ) (last : ℚ), List.Sorted (· < ·) trials →
      (∀ t ∈ trials, last ≤ t) →
      ∀ pr ∈ (last :: RT.dmloop cond trials last).zip (RT.dmloop cond trials last),
        ∀ s ∈ trials, pr.1 < s → s < pr.2 → cond s ((s - pr.1) / 2) = false := by
  intro trials
  induction trials with
  | nil => intro last _ _ pr hpr; simp [RT.dmloop] at hpr
  | cons t rest ih =>
    intro last hs hl pr hpr s hsmem hlt1 hlt2
    have hst : ∀ b ∈ rest, t < b := (List.sorted_cons.mp hs).1
    have hsr : List.Sorted (· < ·) rest := (List.sorted_cons.mp hs).2
    have hlet : last ≤ t := hl t (List.mem_cons_self t rest)
    rw [RT.dmloop] at hpr
    by_cases hc : cond t ((t - last) / 2)
    · rw [if_pos hc] at hpr
      rw [List.zip_cons_cons] at hpr
      rcases List.mem_cons.mp hpr with heq | hpr'
      · exfalso
        rw [heq] at hlt1 hlt2
        rcases List.mem_cons.mp hsmem with rfl | hsmem'
        · exact absurd hlt2 (lt_irrefl s)
        · exact absurd (hst s hsmem') (not_lt.mpr (le_of_lt hlt2))
      · rcases List.mem_cons.mp hsmem with rfl | hsmem'
        · exfalso
          have hp1 : pr.1 ∈ s :: RT.dmloop cond rest s := (List.of_mem_zip hpr').1
          rcases List.mem_cons.mp hp1 with hp | hp
          · rw [hp] at hlt1
            exact absurd hlt1 (lt_irrefl _)
          · have : s < pr.1 := hst pr.1 (dmloop_subset cond rest s pr.1 hp)
            exact absurd (this.trans hlt1) (lt_irrefl s)
        · exact ih t hsr (fun r hr => le_of_lt (hst r hr)) pr hpr' s hsmem' hlt1 hlt2
    · rw [if_neg hc] at hpr
      rcases List.mem_cons.mp hsmem with rfl | hsmem'
      · have hp1 : pr.1 ∈ last :: RT.dmloop cond rest last := (List.of_mem_zip hpr).1
        rcases List.mem_cons.mp hp1 with hp | hp
        · rw [hp]
          simpa using hc
        · exfalso
          have : s < pr.1 := hst pr.1 (dmloop_subset cond rest last pr.1 hp)
          exact absurd (this.trans hlt1) (lt_irrefl s)
      · exact ih last hsr (fun r hr => hlet.trans (le_of_lt (hst r hr))) pr hpr s hsmem' hlt1 hlt2

/-- The trial grid is strictly sorted. -/
theorem dmgrid_sorted (mindm maxdm : ℚ) : List.Sorted (· < ·) (RT.dmgrid mindm maxdm) := by
  unfold RT.dmgrid
  refine List.Pairwise.map _ ?_ (List.pairwise_lt_range _)
  intro a b hab
  have : (a : ℚ) < (b : ℚ) := by exact_mod_cast hab
  linarith

/-- For `mindm < maxdm` the trial grid is nonempty and starts at `mindm`. -/
theorem dmgrid_cons (mindm maxdm : ℚ) (hlt : mindm < maxdm) :
    ∃ rest, RT.dmgrid mindm maxdm = mindm :: rest := by
  have hpos : 0 < (maxdm - mindm) / (1 / 20) := by
    apply div_pos (by linarith) (by norm_num)
  have hceil : 0 < ⌈(maxdm - mindm) / (1 / 20)⌉ := Int.ceil_pos.mpr hpos
  have hn : 0 < ⌈(maxdm - mindm) / (1 / 20)⌉.toNat := by
    rw [Int.lt_toNat]
    exact_mod_cast hceil
  obtain ⟨n, hn'⟩ := Nat.exists_eq_succ_of_ne_zero hn.ne'
  refine ⟨((List.range n).map Nat.succ).map (fun i : ℕ => mindm + (1 / 20) * (i : ℚ)), ?_⟩
  unfold RT.dmgrid
  rw [hn', List.range_succ_eq_map, List.map_cons, List.map_map]
  congr 1
  simp

/-- Trial grid members lie in `[mindm, maxdm)`. -/
theorem dmgrid_mem_bounds (mindm maxdm x : ℚ) (hx : x ∈ RT.dmgrid mindm maxdm) :
    mindm ≤ x ∧ x < maxdm := by
  unfold RT.dmgrid at hx
  rw [List.mem_map] at hx
  obtain ⟨i, hi, rfl⟩ := hx
  rw [List.mem_range, Int.lt_toNat] at hi
  have hiq : (i : ℚ) < (maxdm - mindm) / (1 / 20) := by
    have := Int.lt_ceil.mp hi
    exact_mod_cast this
  have h1 : (i : ℚ) * (1 / 20) < maxdm - mindm :=
    (lt_div_iff₀ (by norm_num : (0 : ℚ) < 1 / 20)).mp hiq
  constructor
  · have : 0 ≤ (1 / 20 : ℚ) * (i : ℚ) := by positivity
    linarith
  · linarith

/-- Master description of `calc_dmgrid` on a nonempty trial grid: the result
starts at `mindm`, is strictly increasing, stays in `[mindm, maxdm)`, its
tail consists of trial-grid values, each appended DM exceeded the loss bound
against its predecessor, and every skipped trial between two adjacent output
DMs satisfied the loss bound. -/
theorem calc_dmgrid_ok (inttime : ℚ) (freq : List ℚ) (maxloss dtp mindm maxdm : ℚ)
    (hdtp : 0 < dtp) (hml : 0 ≤ maxloss) (hne : maxdm ≠ 0) (hlt : mindm < maxdm) :
    ∃ g, RT.calc_dmgrid inttime freq maxloss dtp mindm maxdm = some g ∧
      g.headI = mindm ∧
      List.Sorted (· < ·) g ∧
      (∀ x ∈ g, mindm ≤ x ∧ x < maxdm) ∧
      (∀ x ∈ g.tail, x ∈ RT.dmgrid mindm maxdm) ∧
      List.Chain' (fun a b => (maxloss : ℝ) <
        RT.loss (RT.dmParamsOf dtp inttime freq) b ((b - a) / 2)) g ∧
      (∀ pr ∈ g.zip g.tail, ∀ t ∈ RT.dmgrid mindm maxdm, pr.1 < t → t < pr.2 →
        RT.loss (RT.dmParamsOf dtp inttime freq) t ((t - pr.1) / 2) ≤ (maxloss : ℝ)) := by
  obtain ⟨rest, hgrid⟩ := dmgrid_cons mindm maxdm hlt
  have hsort_trials : List.Sorted (· < ·) (mindm :: rest) := by
    rw [← hgrid]
    exact dmgrid_sorted mindm maxdm
  have hfirst : ∀ t ∈ mindm :: rest, mindm ≤ t := by
    intro t ht
    rcases List.mem_cons.mp ht with rfl | ht'
    · exact le_refl t
    · exact le_of_lt ((List.sorted_cons.mp hsort_trials).1 t ht')
  have hc0 : ∀ t, RT.lossGtB (RT.dmParamsOf dtp inttime freq) maxloss t 0 = false :=
    fun t => lossGtB_zero (RT.dmParamsOf dtp inttime freq) maxloss t hml
  have hA : ∀ dm : ℚ, 0 < RT.dt0sq (RT.dmParamsOf dtp inttime freq) dm :=
    fun dm => dt0sq_pos (RT.dmParamsOf dtp inttime freq) hdtp dm
  refine ⟨mindm :: RT.dmloop
      (fun t ddm => RT.lossGtB (RT.dmParamsOf dtp inttime freq) maxloss t ddm)
      (mindm :: rest) mindm, ?_, rfl, ?_, ?_, ?_, ?_, ?_⟩
  · unfold RT.calc_dmgrid
    rw [if_neg hne, hgrid]
  · exact dmloop_sorted _ hc0 (mindm :: rest) mindm hsort_trials hfirst
  · intro x hx
    rcases List.mem_cons.mp hx with rfl | hx'
    · exact ⟨le_refl x, hlt⟩
    · have hmem : x ∈ mindm :: rest := dmloop_subset _ (mindm :: rest) mindm x hx'
      rw [← hgrid] at hmem
      exact dmgrid_mem_bounds mindm maxdm x hmem
  · intro x hx
    rw [List.tail_cons] at hx
    have hmem : x ∈ mindm :: rest := dmloop_subset _ (mindm :: rest) mindm x hx
    rw [← hgrid] at hmem
    exact hmem
  · have hch := dmloop_chain
      (fun t ddm => RT.lossGtB (RT.dmParamsOf dtp inttime freq) maxloss t ddm)
      (mindm :: rest) mindm
    refine List.Chain'.imp ?_ hch
    intro a b hab
    exact (lossGtB_iff (RT.dmParamsOf dtp inttime freq) maxloss b ((b - a) / 2) (hA b)).mp hab
  · intro pr hpr t ht h1 h2
    rw [List.tail_cons] at hpr
    have hskip := dmloop_skipped
      (fun t ddm => RT.lossGtB (RT.dmParamsOf dtp inttime freq) maxloss t ddm)
      (mindm :: rest) mindm hsort_trials hfirst pr hpr t (by rw [← hgrid]; exact ht) h1 h2
    by_contra hcon
    push_neg at hcon
    have htrue := (lossGtB_iff (RT.dmParamsOf dtp inttime freq) maxloss t
      ((t - pr.1) / 2) (hA t)).mpr hcon
    have hskip' : RT.lossGtB (RT.dmParamsOf dtp inttime freq) maxloss t
        ((t - pr.1) / 2) = false := hskip
    rw [htrue] at hskip'
    exact absurd hskip' (by decide)

/-- Concrete trial grid: `mindm = 0`, `maxdm = 1/10` gives two trials. -/
theorem dmgrid_eval_example : RT.dmgrid 0 (1 / 10) = [0, 1 / 20] := by
  unfold RT.dmgrid
  have hc : ⌈((1 / 10 : ℚ) - 0) / (1 / 20)⌉ = 2 := by norm_num
  rw [hc]
  have h2 : List.range (Int.toNat 2) = [0, 1] := rfl
  rw [h2]
  norm_num

/-- At the example state the first trial (equal to the last DM) fails the
loss test. -/
theorem lossGtB_eval_false : RT.lossGtB (RT.dmParamsOf 1 0 [1, 1, 2]) (1 / 20) 0
    ((0 - 0) / 2) = false := by
  rw [RT.lossGtB, decide_eq_false_iff_not]
  rintro ⟨-, h⟩
  norm_num [RT.dt0sq, RT.dt1sq, RT.dmParamsOf] at h

/-- At the example state the second trial passes the loss test. -/
theorem lossGtB_eval_true : RT.lossGtB (RT.dmParamsOf 1 0 [1, 1, 2]) (1 / 20) (1 / 20)
    ((1 / 20 - 0) / 2) = true := by
  rw [RT.lossGtB, decide_eq_true_eq]
  constructor
  · norm_num
  · norm_num [RT.dt0sq, RT.dt1sq, RT.dmParamsOf]

/-- Concrete run of `calc_dmgrid`: pulse width 1 µs, `inttime = 0`,
`freq = [1, 1, 2]` GHz, `maxloss = 1/20`, `mindm = 0`, `maxdm = 1/10`. -/
theorem calc_dmgrid_eval_example :
    RT.calc_dmgrid 0 [1, 1, 2] (1 / 20) 1 0 (1 / 10) = some [0, 1 / 20] := by
  unfold RT.calc_dmgrid
  rw [if_neg (by norm_num : ¬ (1 / 10 : ℚ) = 0), dmgrid_eval_example]
  simp only [RT.dmloop, lossGtB_eval_false, lossGtB_eval_true, Bool.false_eq_true,
    if_false, if_true]

/-- C1: for every state with `maxdm = 0`, `calc_dmgrid` returns `[0]`; for
`maxdm > 0` (with `mindm < maxdm` so the source's `dmgrid[0]` exists, a
nonnegative `maxloss`, and a positive assumed pulse width `dt`) it returns a
monotone increasing grid whose first element is `mindm`, built by iterating
over the trial grid `mindm, mindm+0.05, …` (step 0.05, up to `maxdm`) and
appending a trial `dm` exactly when `loss(dm, (dm−last)/2) > maxloss`, where
`loss(dm, ddm) = 1 − sqrt(dt0(dm)/dt1(dm, ddm))` with
`dt0(dm)² = dt² + tsamp² + (8.3·dm·Δch/ν̄³)²` and
`dt1(dm, ddm)² = dt0(dm)² + (8.3·ddm·BW/ν̄³)²` (see `RT.loss`, `RT.dt0sq`,
`RT.dt1sq`): each appended DM exceeded the bound against its predecessor and
every skipped trial between adjacent output DMs satisfied it. -/
theorem calc_dmgrid_correct (inttime : ℚ) (freq : List ℚ) (maxloss dtp mindm maxdm : ℚ)
    (hdtp : 0 < dtp) (hml : 0 ≤ maxloss) :
    RT.calc_dmgrid inttime freq maxloss dtp mindm 0 = some [0] ∧
    (0 < maxdm → mindm < maxdm →
      ∃ g, RT.calc_dmgrid inttime freq maxloss dtp mindm maxdm = some g ∧
        g.headI = mindm ∧
        List.Sorted (· < ·) g ∧
        (∀ x ∈ g, mindm ≤ x ∧ x < maxdm) ∧
        (∀ x ∈ g.tail, x ∈ RT.dmgrid mindm maxdm) ∧
        List.Chain' (fun a b => (maxloss : ℝ) <
          RT.loss (RT.dmParamsOf dtp inttime freq) b ((b - a) / 2)) g ∧
        (∀ pr ∈ g.zip g.tail, ∀ t ∈ RT.dmgrid mindm maxdm, pr.1 < t → t < pr.2 →
          RT.loss (RT.dmParamsOf dtp inttime freq) t ((t - pr.1) / 2) ≤ (maxloss : ℝ))) := by
  refine ⟨?_, fun hmax hlt =>
    calc_dmgrid_ok inttime freq maxloss dtp mindm maxdm hdtp hml (ne_of_gt hmax) hlt⟩
  unfold RT.calc_dmgrid
  rw [if_pos rfl]

/-- Witness for C1 at pulse width 1 µs, `inttime = 0`, `freq = [1, 1, 2]`,
`maxloss = 1/20`, `mindm = 0`, `maxdm = 1/10`. -/
theorem calc_dmgrid_correct_witness :
    RT.calc_dmgrid 0 [1, 1, 2] (1 / 20) 1 0 0 = some [0] ∧
    ((0 : ℚ) < 1 / 10 → (0 : ℚ) < 1 / 10 →
      ∃ g, RT.calc_dmgrid 0 [1, 1, 2] (1 / 20) 1 0 (1 / 10) = some g ∧
        g.headI = 0 ∧
        List.Sorted (· < ·) g ∧
        (∀ x ∈ g, 0 ≤ x ∧ x < 1 / 10) ∧
        (∀ x ∈ g.tail, x ∈ RT.dmgrid 0 (1 / 10)) ∧
        List.Chain' (fun a b => ((1 / 20 : ℚ) : ℝ) <
          RT.loss (RT.dmParamsOf 1 0 [1, 1, 2]) b ((b - a) / 2)) g ∧
        (∀ pr ∈ g.zip g.tail, ∀ t ∈ RT.dmgrid 0 (1 / 10), pr.1 < t → t < pr.2 →
          RT.loss (RT.dmParamsOf 1 0 [1, 1, 2]) t ((t - pr.1) / 2) ≤ ((1 / 20 : ℚ) : ℝ))) :=
  calc_dmgrid_correct 0 [1, 1, 2] (1 / 20) 1 0 (1 / 10) (by norm_num) (by norm_num)

/-- C5 (amended): for every grid returned by `calc_dmgrid` and adjacent
entries `dm < dm+Δdm`, the loss at the appended upper entry exceeds the
bound — `loss(dm+Δdm, Δdm/2) > maxloss`, which is precisely why it was
appended, so the claimed bound `loss(dm, Δdm/2) ≤ maxloss + ε` fails — while
the true guarantee is that every skipped trial `t` strictly between them
satisfies `loss(t, (t−dm)/2) ≤ maxloss`. -/
theorem dmgrid_adjacent_loss (inttime : ℚ) (freq : List ℚ)
    (maxloss dtp mindm maxdm : ℚ) (g : List ℚ)
    (hdtp : 0 < dtp) (hml : 0 ≤ maxloss) (hne : maxdm ≠ 0) (hlt : mindm < maxdm)
    (hg : RT.calc_dmgrid inttime freq maxloss dtp mindm maxdm = some g) :
    ∀ pr ∈ g.zip g.tail,
      ((maxloss : ℝ) <
        RT.loss (RT.dmParamsOf dtp inttime freq) pr.2 ((pr.2 - pr.1) / 2)) ∧
      (∀ t ∈ RT.dmgrid mindm maxdm, pr.1 < t → t < pr.2 →
        RT.loss (RT.dmParamsOf dtp inttime freq) t ((t - pr.1) / 2) ≤ (maxloss : ℝ)) := by
  obtain ⟨g', hg', hhead, hsort, hbounds, htail, hchain, hskip⟩ :=
    calc_dmgrid_ok inttime freq maxloss dtp mindm maxdm hdtp hml hne hlt
  rw [hg] at hg'
  obtain rfl := (Option.some.inj hg')
  intro pr hpr
  exact ⟨chain'_pairs _ g hchain pr hpr, hskip pr hpr⟩

/-- Counterexample for C5 as stated: at pulse width 1 µs, `inttime = 0`,
`freq = [1, 1, 2]` GHz, `maxloss = 1/20`, the grid is `[0, 1/20]` and the
adjacent pair `(0, 1/20)` has `loss(0, Δdm/2) > maxloss + 1/2` — no small
tolerance `ε` bounds the loss between adjacent grid DMs. -/
theorem dmgrid_adjacent_loss_counterexample :
    RT.calc_dmgrid 0 [1, 1, 2] (1 / 20) 1 0 (1 / 10) = some [0, 1 / 20] ∧
    ((1 / 20 : ℚ) : ℝ) + 1 / 2 <
      RT.loss (RT.dmParamsOf 1 0 [1, 1, 2]) 0 ((1 / 20 - 0) / 2) := by
  refine ⟨calc_dmgrid_eval_example, ?_⟩
  have hA : 0 < RT.dt0sq (RT.dmParamsOf 1 0 [1, 1, 2]) 0 := by
    norm_num [RT.dt0sq, RT.dmParamsOf]
  have h := (lossGtB_iff (RT.dmParamsOf 1 0 [1, 1, 2]) (11 / 20) 0
      ((1 / 20 - 0) / 2) hA).mp ?_
  · push_cast at h ⊢
    linarith
  · rw [RT.lossGtB, decide_eq_true_eq]
    refine ⟨by norm_num, ?_⟩
    norm_num [RT.dt0sq, RT.dt1sq, RT.dmParamsOf]

/-- Witness for C5 (amended) at the same concrete state: the adjacent pair
`(0, 1/20)` of the grid `[0, 1/20]`. -/
theorem dmgrid_adjacent_loss_witness :
    (((1 / 20 : ℚ) : ℝ) <
      RT.loss (RT.dmParamsOf 1 0 [1, 1, 2]) (1 / 20) ((1 / 20 - 0) / 2)) ∧
    (∀ t ∈ RT.dmgrid 0 (1 / 10), 0 < t → t < 1 / 20 →
      RT.loss (RT.dmParamsOf 1 0 [1, 1, 2]) t ((t - 0) / 2) ≤ ((1 / 20 : ℚ) : ℝ)) :=
  dmgrid_adjacent_loss 0 [1, 1, 2] (1 / 20) 1 0 (1 / 10) [0, 1 / 20]
    (by norm_num) (by norm_num) (by norm_num) (by norm_num)
    calc_dmgrid_eval_example (0, 1 / 20) (by simp)
